import Mathlib

/-!
Shallow embedding of the chunked ingestion-and-merge pipeline of the
pdf-knowledge-graph-generator repository:
`app/database_manager.py` (`DatabaseManager.update_graph`),
`app/ingestion_pipeline.py` (`IngestionPipeline.process_directory`),
`app/graph_builder.py` (`GraphBuilder.extract_graph_from_chunk`),
`app/utils.py` (`normalise_schema`, `merge_ontologies`) and the chunking
loop shared with `app/assignment.py` (`process_files`).

Python dicts coming from `json.loads` are embedded as structures whose
fields are `Option`s (a missing key is `none`; `d['k']` on a missing key
raises `KeyError`, modelled with `Except`).  The FalkorDB graph store is
embedded as an explicit state: a list of nodes (a node is identified by
its label and `name` property, the key of the Cypher pattern
`MERGE (n:Lbl \x7bname: $name\x7d)`) and a list of edges.  Exceptions raised
mid-loop leave the queries already executed in place, so the error value
of `Except` carries the database state at the raise point, matching the
mutation semantics of the Python code.
-/

deriving instance DecidableEq for Except

namespace PDFKG

/-- An entity record of an extraction payload: the Python dict
`{name, type, description?}`; absent keys are `none`. -/
structure Entity where
  name : Option String
  type : Option String
  description : Option String
deriving DecidableEq

/-- A relationship record of an extraction payload: the Python dict
`{source, target, type}`; absent keys are `none`. -/
structure Rel where
  source : Option String
  target : Option String
  type : Option String
deriving DecidableEq

/-- The parsed extraction payload `graph_data`: the two keys checked by
`update_graph`; a missing key is `none` (the empty dict `{}` is
`⟨none, none⟩`). -/
structure GraphData where
  entities : Option (List Entity)
  relationships : Option (List Rel)
deriving DecidableEq

/-- A stored FalkorDB node: label, `name` property and `description`
property. -/
structure Node where
  label : String
  name : String
  description : String
deriving DecidableEq

/-- A stored directed edge: endpoint node keys (label, name) and the edge
type. -/
structure Edge where
  srcLabel : String
  srcName : String
  tgtLabel : String
  tgtName : String
  type : String
deriving DecidableEq

/-- The graph store state: the node set and edge set, as insertion-ordered
lists. -/
structure GraphState where
  nodes : List Node
  edges : List Edge
deriving DecidableEq

def emptyGraph : GraphState := ⟨[], []⟩

/-- Python `s.replace(" ", "_")` (a one-character pattern, hence a
character-wise map), the only transformation applied to a type string
before it is interpolated as a label. -/
def sanitize (s : String) : String :=
  ⟨s.data.map (fun c => if c = ' ' then '_' else c)⟩

/-- Whether a node with the given label and `name` property exists — the
match condition of `MERGE (n:Lbl \x7bname: $name\x7d)`. -/
def hasNode (st : GraphState) (lbl nm : String) : Bool :=
  st.nodes.any (fun n => n.label == lbl && n.name == nm)

/-- One entity query of `update_graph`:
`MERGE (n:%s \x7bname: $name\x7d) ON CREATE SET n.description = $description`
with the label `entity['type'].replace(" ", "_")`.  Accessing a missing
`type` or `name` key raises (`KeyError`) before any query runs;
`entity.get('description', '')` defaults to the empty string. -/
def mergeEntity (st : GraphState) (e : Entity) : Except Unit GraphState :=
  match e.type, e.name with
  | some ty, some nm =>
    let lbl := sanitize ty
    if hasNode st lbl nm then .ok st
    else .ok { st with nodes := st.nodes ++ [⟨lbl, nm, e.description.getD ""⟩] }
  | _, _ => .error ()

/-- Merge one edge between two already-matched nodes:
`MERGE (a)-[r:%s]->(b)` — create the edge unless an edge of that type
already runs from `a` to `b`. -/
def mergeEdge (st : GraphState) (a b : Node) (lbl : String) : GraphState :=
  let e : Edge := ⟨a.label, a.name, b.label, b.name, lbl⟩
  if e ∈ st.edges then st else { st with edges := st.edges ++ [e] }

/-- One relationship query of `update_graph`:
`MATCH (a \x7bname: $source\x7d) MATCH (b \x7bname: $target\x7d) MERGE (a)-[r:%s]->(b)`
with the label `rel['type'].replace(" ", "_")`.  The two `MATCH` clauses
constrain only the `name` property (no label), producing the cartesian
product of matching rows; `MERGE` runs once per row.  Accessing a missing
`type`, `source` or `target` key raises before the query runs. -/
def applyRel (st : GraphState) (r : Rel) : Except Unit GraphState :=
  match r.type, r.source, r.target with
  | some ty, some s, some t =>
    let lbl := sanitize ty
    let srcs := st.nodes.filter (fun n => n.name == s)
    let tgts := st.nodes.filter (fun n => n.name == t)
    .ok (srcs.foldl (fun acc a => tgts.foldl (fun acc2 b => mergeEdge acc2 a b lbl) acc) st)
  | _, _, _ => .error ()

/-- The entity loop of `update_graph`.  A raising record aborts the loop;
the error carries the state produced by the records already processed. -/
def applyEntities (st : GraphState) : List Entity → Except GraphState GraphState
  | [] => .ok st
  | e :: rest =>
    match mergeEntity st e with
    | .ok st' => applyEntities st' rest
    | .error _ => .error st

/-- The relationship loop of `update_graph`, same exception behaviour. -/
def applyRels (st : GraphState) : List Rel → Except GraphState GraphState
  | [] => .ok st
  | r :: rest =>
    match applyRel st r with
    | .ok st' => applyRels st' rest
    | .error _ => .error st

/-- `DatabaseManager.update_graph(db_instance, graph_data)`.  `none`
models a falsy `graph_data` (e.g. `None`); a `GraphData` with a `none`
field models a dict lacking that key.  On success returns the new state
and `len(entities) + len(relationships)`; an uncaught `KeyError` from a
malformed record is `.error` carrying the state at the raise. -/
def update_graph (st : GraphState) (graph_data : Option GraphData) :
    Except GraphState (GraphState × Nat) :=
  match graph_data with
  | none => .ok (st, 0)
  | some gd =>
    match gd.entities, gd.relationships with
    | some es, some rs =>
      match applyEntities st es with
      | .error stE => .error stE
      | .ok st1 =>
        match applyRels st1 rs with
        | .error stE => .error stE
        | .ok st2 => .ok (st2, es.length + rs.length)
    | _, _ => .ok (st, 0)

/-- Python `range(start, stop, step)` for a non-negative step: the offsets
visited by the chunking loop. -/
def pyRange (start stop step : Nat) : List Nat :=
  if _h : 0 < step ∧ start < stop then start :: pyRange (start + step) stop step
  else []
termination_by stop - start
decreasing_by omega

/-- The chunking loop of `IngestionPipeline.process_directory` /
`process_files`:
`for i in range(0, len(full_text), chunk_size - chunk_overlap):
   chunk = full_text[i:i + chunk_size]`. -/
def chunkText (chunk_size chunk_overlap : Nat) (full_text : List Char) :
    List (List Char) :=
  (pyRange 0 full_text.length (chunk_size - chunk_overlap)).map
    (fun i => (full_text.drop i).take chunk_size)

/-- `GraphBuilder.extract_graph_from_chunk`: the external completion call
followed by `json.loads`, both inside `try/except`.  The parameter is the
outcome of that external interaction for the chunk (`.error` if the
service call raised or the reply was not parseable JSON, `.ok` with the
parsed payload otherwise); any exception is caught and `None` returned. -/
def extract_graph_from_chunk (outcome : Except Unit GraphData) : Option GraphData :=
  match outcome with
  | .error _ => none
  | .ok gd => some gd

/-- Python truthiness of the parsed dict `graph_data`: the empty dict
`⟨none, none⟩` is falsy. -/
def truthy (gd : GraphData) : Bool :=
  gd.entities.isSome || gd.relationships.isSome

/-- One iteration of the chunk loop:
`graph_data = self.graph_builder.extract_graph_from_chunk(chunk)`
then `if graph_data: self.db_manager.update_graph(db_instance, graph_data)`.
An exception escaping `update_graph` propagates out of the loop. -/
def processChunk (st : GraphState) (outcome : Except Unit GraphData) :
    Except GraphState GraphState :=
  match extract_graph_from_chunk outcome with
  | none => .ok st
  | some gd =>
    if truthy gd then
      match update_graph st (some gd) with
      | .ok (st', _) => .ok st'
      | .error stE => .error stE
    else .ok st

/-- The chunk loop of one file, exceptions propagating. -/
def processFileChunks (st : GraphState) :
    List (Except Unit GraphData) → Except GraphState GraphState
  | [] => .ok st
  | o :: rest =>
    match processChunk st o with
    | .ok st' => processFileChunks st' rest
    | .error stE => .error stE

/-- One file of `IngestionPipeline.process_directory`: the whole chunk
loop sits inside `try/except`, so an exception from `update_graph` skips
the file's remaining chunks, keeps the state already written, and control
returns to the file loop. -/
def processFile (st : GraphState) (outcomes : List (Except Unit GraphData)) :
    GraphState :=
  match processFileChunks st outcomes with
  | .ok st' => st'
  | .error stE => stE

/-- `IngestionPipeline.process_directory`, with each file represented by
the list of extraction outcomes of its chunks. -/
def process_directory (st : GraphState)
    (files : List (List (Except Unit GraphData))) : GraphState :=
  files.foldl processFile st

/-- An attribute dict of an ontology schema record, Python
`{name?, type?, unique?, required?}`; absent keys are `none`. -/
structure Attr where
  name : Option String
  type : Option String
  unique : Option Bool
  required : Option Bool
deriving DecidableEq

/-- `attr.setdefault` for the three keys handled by `normalise_schema`:
each is set to the default only when absent, never overridden. -/
def setAttrDefaults (a : Attr) : Attr :=
  { a with
    type := some (a.type.getD "string")
    unique := some (a.unique.getD false)
    required := some (a.required.getD false) }

/-- A raw schema record as loaded from `ontology.json`: dict with an
optional `attributes` list (`ent.get("attributes", [])`). -/
structure RawRecord where
  label : Option String
  attributes : Option (List Attr)
deriving DecidableEq

/-- The raw schema dict: optional top-level `entities` and `relations`
keys (`raw.get("entities", [])`). -/
structure RawSchema where
  entities : Option (List RawRecord)
  relations : Option (List RawRecord)
deriving DecidableEq

/-- `normalise_schema(raw)` of `app/utils.py`: iterates
`raw.get("entities", [])` and, per record, `ent.get("attributes", [])`,
applying `setdefault` to each attribute dict.  Note the loop touches only
the `entities` list of the raw dict. -/
def normalise_schema (raw : RawSchema) : RawSchema :=
  { raw with
    entities := raw.entities.map (fun es =>
      es.map (fun ent =>
        { ent with attributes := ent.attributes.map (fun attrs => attrs.map setAttrDefaults) })) }

/-- An ontology schema record (`graphrag_sdk` entity or relation): a
label plus its attribute list. -/
structure OntRecord where
  label : String
  attributes : List Attr
deriving DecidableEq

/-- A `graphrag_sdk.Ontology`: entity records and relation records. -/
structure Ontology where
  entities : List OntRecord
  relations : List OntRecord
deriving DecidableEq

/-- Membership of a key in an embedded Python dict (association list in
insertion order). -/
def hasKey (d : List (String × OntRecord)) (k : String) : Bool :=
  d.any (fun p => p.1 == k)

/-- Python `d[k] = v`: replace in place when the key exists, append
otherwise. -/
def dictInsert (d : List (String × OntRecord)) (k : String) (v : OntRecord) :
    List (String × OntRecord) :=
  if hasKey d k then d.map (fun p => if p.1 == k then (k, v) else p)
  else d ++ [(k, v)]

/-- Python `d.setdefault(k, v)`: append only when the key is absent. -/
def dictSetdefault (d : List (String × OntRecord)) (k : String) (v : OntRecord) :
    List (String × OntRecord) :=
  if hasKey d k then d else d ++ [(k, v)]

/-- `_by_label(seq)` of `merge_ontologies`: the dict comprehension
`{item.label: item for item in seq}`. -/
def byLabel (seq : List OntRecord) : List (String × OntRecord) :=
  seq.foldl (fun d item => dictInsert d item.label item) []

/-- `merge_ontologies(a, b)` of `app/utils.py`: build a label→record dict
from `a`, `setdefault` each record of `b`, for entities and relations
independently; the result lists are the dict values in insertion order. -/
def merge_ontologies (a b : Ontology) : Ontology :=
  let entMap := b.entities.foldl (fun d e => dictSetdefault d e.label e) (byLabel a.entities)
  let relMap := b.relations.foldl (fun d r => dictSetdefault d r.label r) (byLabel a.relations)
  ⟨entMap.map (·.2), relMap.map (·.2)⟩

/-- A character legal in an unquoted Cypher identifier/label: letters,
digits and the underscore.  Spec-side notion ("characters illegal in the
storage layer's identifier syntax") used to state the sanitization
claim. -/
def isLegalLabelChar (c : Char) : Bool := c.isAlpha || c.isDigit || c == '_'

/-- C10: a falsy payload, or one lacking the `entities` or the
`relationships` key, makes `update_graph` return 0 without touching the
graph state. -/
theorem update_graph_invalid_noop (st : GraphState) (gd : Option GraphData)
    (h : gd = none ∨ ∃ g, gd = some g ∧ (g.entities = none ∨ g.relationships = none)) :
    update_graph st gd = .ok (st, 0) := by
  rcases h with h | ⟨⟨ge, gr⟩, rfl, hg⟩
  · subst h; rfl
  · rcases hg with h | h <;> simp only at h <;> subst h
    · cases gr <;> rfl
    · cases ge <;> rfl

/-- Witness for `update_graph_invalid_noop` at the payload `None`. -/
theorem update_graph_invalid_noop_witness :
    update_graph emptyGraph none = .ok (emptyGraph, 0) :=
  update_graph_invalid_noop emptyGraph none (Or.inl rfl)

/-- C6: entity upsert is create-only.  If a node with the entity's name
exists under the sanitized type label, the whole state is unchanged (in
particular the stored description); otherwise the node is created with
the given description (empty string when the key is absent). -/
theorem entity_upsert_create_only (st : GraphState) (e : Entity) (ty nm : String)
    (hty : e.type = some ty) (hnm : e.name = some nm) :
    (hasNode st (sanitize ty) nm = true → mergeEntity st e = .ok st) ∧
    (hasNode st (sanitize ty) nm = false →
      mergeEntity st e =
        .ok { st with nodes := st.nodes ++ [⟨sanitize ty, nm, e.description.getD ""⟩] }) := by
  constructor <;> intro h <;> simp [mergeEntity, hty, hnm, h]

/-- Witness for `entity_upsert_create_only`: re-sighting `Neo` with a new
description leaves the stored node untouched. -/
theorem entity_upsert_create_only_witness :
    mergeEntity ⟨[⟨"PERSON", "Neo", "The protagonist"⟩], []⟩
        ⟨some "Neo", some "PERSON", some "someone else"⟩ =
      .ok ⟨[⟨"PERSON", "Neo", "The protagonist"⟩], []⟩ :=
  (entity_upsert_create_only ⟨[⟨"PERSON", "Neo", "The protagonist"⟩], []⟩
    ⟨some "Neo", some "PERSON", some "someone else"⟩ "PERSON" "Neo" rfl rfl).1
    (by decide)

/-- C9 counterexample: the only sanitization is `replace(" ", "_")`, so a
type string containing another character that is illegal in an unquoted
identifier (here `-`) is used as the label verbatim: the node created by
`update_graph` carries the label `A-B`, which contains the illegal
character `-`. -/
theorem sanitize_counterexample :
    update_graph emptyGraph (some ⟨some [⟨some "Neo", some "A-B", none⟩], some []⟩) =
      .ok (⟨[⟨"A-B", "Neo", ""⟩], []⟩, 1) ∧
    '-' ∈ ("A-B" : String).data ∧ isLegalLabelChar '-' = false := by
  decide

/-- C9 amended: the label used is `sanitize ty`, which contains no space;
every character of it comes from the input type unchanged or is the
underscore substituted for a space, and every non-space input character
survives — so no other illegal character is removed. -/
theorem sanitize_space_only (ty : String) :
    (∀ c ∈ (sanitize ty).data, c ≠ ' ') ∧
    (∀ c ∈ (sanitize ty).data, c ∈ ty.data ∨ c = '_') ∧
    (∀ c ∈ ty.data, c ≠ ' ' → c ∈ (sanitize ty).data) := by
  refine ⟨?_, ?_, ?_⟩
  · intro c hc
    simp only [sanitize, List.mem_map] at hc
    rcases hc with ⟨a, _, rfl⟩
    split <;> simp_all
  · intro c hc
    simp only [sanitize, List.mem_map] at hc
    rcases hc with ⟨a, ha, rfl⟩
    split
    · exact Or.inr rfl
    · exact Or.inl ha
  · intro c hc hne
    simp only [sanitize, List.mem_map]
    exact ⟨c, hc, by simp [hne]⟩

/-- Witness for `sanitize_space_only`: the illegal character `-` of the
type `A-B` survives sanitization. -/
theorem sanitize_space_only_witness : '-' ∈ (sanitize "A-B").data :=
  (sanitize_space_only "A-B").2.2 '-' (by decide) (by decide)

/-- C8: `normalise_schema` fills defaults only in the `entities` list —
a relation attribute dict is left without the defaults (its `type`,
`unique`, `required` keys stay absent), while an entity attribute dict
gets exactly the missing defaults and present keys are never
overridden. -/
theorem normalise_schema_skips_relations :
    (normalise_schema
        ⟨none, some [⟨some "AUTHORED_BY", some [⟨some "since", none, none, none⟩]⟩]⟩ =
      ⟨none, some [⟨some "AUTHORED_BY", some [⟨some "since", none, none, none⟩]⟩]⟩) ∧
    (normalise_schema
        ⟨some [⟨some "Person", some [⟨some "name", none, none, none⟩]⟩], none⟩ =
      ⟨some [⟨some "Person",
        some [⟨some "name", some "string", some false, some false⟩]⟩], none⟩) ∧
    (normalise_schema
        ⟨some [⟨some "Person", some [⟨some "age", some "number", some true, none⟩]⟩], none⟩ =
      ⟨some [⟨some "Person",
        some [⟨some "age", some "number", some true, some false⟩]⟩], none⟩) := by
  decide

/-- Closed form of the Python range: for a positive step,
`range(start, stop, step)` is the first `⌈(stop-start)/step⌉` multiples of
`step` shifted by `start`. -/
theorem pyRange_eq (step : Nat) (hstep : 0 < step) (stop start : Nat) :
    pyRange start stop step =
      (List.range ((stop - start + step - 1) / step)).map (fun i => start + i * step) := by
  by_cases hlt : start < stop
  · rw [pyRange, dif_pos ⟨hstep, hlt⟩, pyRange_eq step hstep stop (start + step)]
    have hN : (stop - start + step - 1) / step = (stop - start - 1) / step + 1 := by
      have h1 : stop - start + step - 1 = (stop - start - 1) + step := by omega
      rw [h1, Nat.add_div_right _ hstep]
    have hM : (stop - (start + step) + step - 1) / step = (stop - start - 1) / step := by
      by_cases hd : step ≤ stop - start
      · have h2 : stop - (start + step) + step - 1 = stop - start - 1 := by omega
        rw [h2]
      · have h0 : stop - (start + step) = 0 := by omega
        rw [h0, Nat.zero_add, Nat.div_eq_of_lt (by omega), Nat.div_eq_of_lt (by omega)]
    rw [hN, hM, List.range_succ_eq_map, List.map_cons, List.map_map]
    congr 1
    · omega
    · apply List.map_congr_left
      intro i _
      simp only [Function.comp_apply, Nat.succ_eq_add_one]
      ring
  · rw [pyRange, dif_neg (by omega)]
    have h0 : stop - start = 0 := by omega
    rw [h0, Nat.zero_add, Nat.div_eq_of_lt (by omega)]
    simp
termination_by stop - start
decreasing_by omega

/-- Closed form of the chunking loop: chunk `i` is
`full_text[i*(chunk_size-chunk_overlap) : i*(chunk_size-chunk_overlap)+chunk_size]`,
for `⌈len/(chunk_size-chunk_overlap)⌉` values of `i`. -/
theorem chunkText_eq (chunk_size chunk_overlap : Nat)
    (hco : chunk_overlap < chunk_size) (s : List Char) :
    chunkText chunk_size chunk_overlap s =
      (List.range
        ((s.length + (chunk_size - chunk_overlap) - 1) / (chunk_size - chunk_overlap))).map
        (fun i => (s.drop (i * (chunk_size - chunk_overlap))).take chunk_size) := by
  unfold chunkText
  rw [pyRange_eq _ (by omega) s.length 0, List.map_map]
  apply List.map_congr_left
  intro i _
  simp [Function.comp]

/-- C2 counterexample: with `chunk_size = 10`, `chunk_overlap = 5` the
non-empty text `abcdefg` is shorter than `chunk_size`, yet the chunker
yields 2 chunks, not 1 — the step is `chunk_size - chunk_overlap = 5`,
and offset 5 is still below the length 7. -/
theorem chunker_short_text_counterexample :
    (0 < 10 ∧ 5 < 10 ∧ ("abcdefg".toList).length < 10 ∧ "abcdefg".toList ≠ []) ∧
    (chunkText 10 5 "abcdefg".toList).length = 2 := by
  constructor
  · decide
  · rw [chunkText_eq 10 5 (by omega)]
    simp

/-- C2 amended: the chunker produces exactly the substrings
`full_text[i*step : i*step+chunk_size]` (step = `chunk_size-chunk_overlap`)
for `i` with `i*step < len`; a non-empty text of length at most the step
yields one chunk equal to the whole text, the empty text yields zero
chunks, and a text of length 12050 with `chunk_size=12000`,
`chunk_overlap=500` yields exactly 2 chunks. -/
theorem chunker_amended (chunk_size chunk_overlap : Nat) (s : List Char)
    (_hcs : 0 < chunk_size) (hco : chunk_overlap < chunk_size) :
    (chunkText chunk_size chunk_overlap s =
      (List.range
        ((s.length + (chunk_size - chunk_overlap) - 1) / (chunk_size - chunk_overlap))).map
        (fun i => (s.drop (i * (chunk_size - chunk_overlap))).take chunk_size)) ∧
    (s ≠ [] → s.length ≤ chunk_size - chunk_overlap →
      chunkText chunk_size chunk_overlap s = [s]) ∧
    (s = [] → chunkText chunk_size chunk_overlap s = []) ∧
    (∀ t : List Char, t.length = 12050 → (chunkText 12000 500 t).length = 2) := by
  refine ⟨chunkText_eq _ _ hco s, ?_, ?_, ?_⟩
  · intro hne hlen
    rw [chunkText_eq _ _ hco]
    have hlen1 : 1 ≤ s.length := List.length_pos.mpr hne
    have h1 : (s.length + (chunk_size - chunk_overlap) - 1) / (chunk_size - chunk_overlap) = 1 := by
      apply Nat.div_eq_of_lt_le <;> omega
    rw [h1, show List.range 1 = [0] from rfl, List.map_singleton, Nat.zero_mul, List.drop_zero,
      List.take_of_length_le (by omega : s.length ≤ chunk_size)]
  · intro he
    subst he
    rw [chunkText_eq _ _ hco]
    simp [Nat.div_eq_of_lt
      (by omega : chunk_size - chunk_overlap - 1 < chunk_size - chunk_overlap)]
  · intro t ht
    rw [chunkText_eq 12000 500 (by omega)]
    simp [ht]

/-- Witness for `chunker_amended`: text `ab`, chunk size 10, overlap 3 —
one chunk equal to the whole text. -/
theorem chunker_amended_witness :
    chunkText 10 3 "ab".toList = ["ab".toList] :=
  (chunker_amended 10 3 "ab".toList (by decide) (by decide)).2.1 (by decide) (by decide)

/-- C4: a chunk whose service call (or JSON parsing) raises contributes
nothing: the chunk loop, the file, and the directory run exactly as if
the failing chunk were absent — no extraction failure aborts the
batch. -/
theorem extraction_failure_isolated (st : GraphState)
    (pre post : List (Except Unit GraphData)) :
    processFileChunks st (pre ++ .error () :: post) = processFileChunks st (pre ++ post) ∧
    processFile st (pre ++ .error () :: post) = processFile st (pre ++ post) ∧
    ∀ fs, process_directory st ((pre ++ .error () :: post) :: fs) =
      process_directory st ((pre ++ post) :: fs) := by
  have h : ∀ (st' : GraphState) (pre' : List (Except Unit GraphData)),
      processFileChunks st' (pre' ++ .error () :: post) =
        processFileChunks st' (pre' ++ post) := by
    intro st' pre'
    induction pre' generalizing st' with
    | nil => rfl
    | cons o rest ih =>
      cases hpc : processChunk st' o with
      | ok st2 =>
        simp only [List.cons_append, processFileChunks, hpc]
        exact ih st2
      | error stE =>
        simp only [List.cons_append, processFileChunks, hpc]
  have hf : processFile st (pre ++ .error () :: post) = processFile st (pre ++ post) := by
    unfold processFile
    rw [h st pre]
  refine ⟨h st pre, hf, fun fs => ?_⟩
  show ((pre ++ _ :: post) :: fs).foldl processFile st = ((pre ++ post) :: fs).foldl processFile st
  rw [List.foldl_cons, List.foldl_cons, hf]

/-- Python list `foldl` with a step that ignores the element is the
identity. -/
theorem foldl_const {α β : Type} (l : List α) (s : β) :
    l.foldl (fun acc _ => acc) s = s := by
  induction l generalizing s with
  | nil => rfl
  | cons a rest ih => rw [List.foldl_cons]; exact ih s

theorem mergeEdge_nodes (st : GraphState) (a b : Node) (lbl : String) :
    (mergeEdge st a b lbl).nodes = st.nodes := by
  simp only [mergeEdge]
  split <;> rfl

theorem mergeEdge_subset (st : GraphState) (a b : Node) (lbl : String) :
    st.edges ⊆ (mergeEdge st a b lbl).edges := by
  simp only [mergeEdge]
  split
  · exact fun e he => he
  · exact fun e he => List.mem_append_left _ he

theorem mergeEdge_mem (st : GraphState) (a b : Node) (lbl : String) :
    (⟨a.label, a.name, b.label, b.name, lbl⟩ : Edge) ∈ (mergeEdge st a b lbl).edges := by
  simp only [mergeEdge]
  split
  · assumption
  · exact List.mem_append_right _ (List.mem_singleton.mpr rfl)

theorem mergeEdge_fix (st : GraphState) (a b : Node) (lbl : String)
    (h : (⟨a.label, a.name, b.label, b.name, lbl⟩ : Edge) ∈ st.edges) :
    mergeEdge st a b lbl = st := by
  simp only [mergeEdge]
  rw [if_pos h]

theorem foldInner_nodes (lbl : String) (a : Node) (tgts : List Node) (st : GraphState) :
    (tgts.foldl (fun acc b => mergeEdge acc a b lbl) st).nodes = st.nodes := by
  induction tgts generalizing st with
  | nil => rfl
  | cons b rest ih => rw [List.foldl_cons, ih, mergeEdge_nodes]

theorem foldInner_subset (lbl : String) (a : Node) (tgts : List Node) (st : GraphState) :
    st.edges ⊆ (tgts.foldl (fun acc b => mergeEdge acc a b lbl) st).edges := by
  induction tgts generalizing st with
  | nil => exact fun e he => he
  | cons b rest ih =>
    rw [List.foldl_cons]
    exact fun e he => ih _ (mergeEdge_subset st a b lbl he)

theorem foldInner_mem (lbl : String) (a : Node) (tgts : List Node) (st : GraphState) :
    ∀ b ∈ tgts,
      (⟨a.label, a.name, b.label, b.name, lbl⟩ : Edge) ∈
        (tgts.foldl (fun acc b => mergeEdge acc a b lbl) st).edges := by
  induction tgts generalizing st with
  | nil => intro b hb; cases hb
  | cons b0 rest ih =>
    intro b hb
    rw [List.foldl_cons]
    rcases List.mem_cons.mp hb with h | h
    · subst h
      exact foldInner_subset lbl a rest _ (mergeEdge_mem st a b lbl)
    · exact ih _ b h

theorem foldInner_fix (lbl : String) (a : Node) (tgts : List Node) (st : GraphState)
    (h : ∀ b ∈ tgts, (⟨a.label, a.name, b.label, b.name, lbl⟩ : Edge) ∈ st.edges) :
    tgts.foldl (fun acc b => mergeEdge acc a b lbl) st = st := by
  induction tgts with
  | nil => rfl
  | cons b rest ih =>
    rw [List.foldl_cons, mergeEdge_fix st a b lbl (h b (List.mem_cons_self _ _))]
    exact ih (fun b' hb' => h b' (List.mem_cons_of_mem _ hb'))

theorem foldOuter_nodes (lbl : String) (srcs tgts : List Node) (st : GraphState) :
    (srcs.foldl (fun acc a => tgts.foldl (fun acc2 b => mergeEdge acc2 a b lbl) acc) st).nodes =
      st.nodes := by
  induction srcs generalizing st with
  | nil => rfl
  | cons a rest ih => rw [List.foldl_cons, ih, foldInner_nodes]

theorem foldOuter_subset (lbl : String) (srcs tgts : List Node) (st : GraphState) :
    st.edges ⊆
      (srcs.foldl (fun acc a => tgts.foldl (fun acc2 b => mergeEdge acc2 a b lbl) acc) st).edges := by
  induction srcs generalizing st with
  | nil => exact fun e he => he
  | cons a rest ih =>
    rw [List.foldl_cons]
    exact fun e he => ih _ (foldInner_subset lbl a tgts st he)

theorem foldOuter_mem (lbl : String) (srcs tgts : List Node) (st : GraphState) :
    ∀ a ∈ srcs, ∀ b ∈ tgts,
      (⟨a.label, a.name, b.label, b.name, lbl⟩ : Edge) ∈
        (srcs.foldl (fun acc a => tgts.foldl (fun acc2 b => mergeEdge acc2 a b lbl) acc) st).edges := by
  induction srcs generalizing st with
  | nil => intro a ha; cases ha
  | cons a0 rest ih =>
    intro a ha b hb
    rw [List.foldl_cons]
    rcases List.mem_cons.mp ha with h | h
    · subst h
      exact foldOuter_subset lbl rest tgts _ (foldInner_mem lbl a tgts st b hb)
    · exact ih _ a h b hb

theorem foldOuter_fix (lbl : String) (srcs tgts : List Node) (st : GraphState)
    (h : ∀ a ∈ srcs, ∀ b ∈ tgts,
      (⟨a.label, a.name, b.label, b.name, lbl⟩ : Edge) ∈ st.edges) :
    srcs.foldl (fun acc a => tgts.foldl (fun acc2 b => mergeEdge acc2 a b lbl) acc) st = st := by
  induction srcs with
  | nil => rfl
  | cons a rest ih =>
    rw [List.foldl_cons, foldInner_fix lbl a tgts st (h a (List.mem_cons_self _ _))]
    exact ih (fun a' ha' => h a' (List.mem_cons_of_mem _ ha'))

/-- C7: relationship endpoints are matched by name alone — any node
whose `name` equals the record's `source`/`target`, whatever its label,
receives the merged edge of the (sanitized) given type; if either
endpoint name matches no node, the record is a no-op (state unchanged,
no error); the node set is never changed by a relationship. -/
theorem rel_upsert_by_name (st : GraphState) (r : Rel) (ty s t : String)
    (hty : r.type = some ty) (hs : r.source = some s) (ht : r.target = some t) :
    ((∀ n ∈ st.nodes, n.name ≠ s) → applyRel st r = .ok st) ∧
    ((∀ n ∈ st.nodes, n.name ≠ t) → applyRel st r = .ok st) ∧
    (∃ st', applyRel st r = .ok st' ∧ st'.nodes = st.nodes ∧
      ∀ a ∈ st.nodes, ∀ b ∈ st.nodes, a.name = s → b.name = t →
        (⟨a.label, a.name, b.label, b.name, sanitize ty⟩ : Edge) ∈ st'.edges) := by
  have hsrc : ∀ n : Node,
      n ∈ st.nodes.filter (fun n => n.name == s) ↔ n ∈ st.nodes ∧ n.name = s := by
    intro n; simp [List.mem_filter]
  have htgt : ∀ n : Node,
      n ∈ st.nodes.filter (fun n => n.name == t) ↔ n ∈ st.nodes ∧ n.name = t := by
    intro n; simp [List.mem_filter]
  refine ⟨?_, ?_, ?_⟩
  · intro hnone
    have hemp : st.nodes.filter (fun n => n.name == s) = [] := by
      rw [List.eq_nil_iff_forall_not_mem]
      intro n hn
      rcases (hsrc n).mp hn with ⟨hmem, hname⟩
      exact hnone n hmem hname
    simp only [applyRel, hty, hs, ht, hemp, List.foldl_nil]
  · intro hnone
    have hemp : st.nodes.filter (fun n => n.name == t) = [] := by
      rw [List.eq_nil_iff_forall_not_mem]
      intro n hn
      rcases (htgt n).mp hn with ⟨hmem, hname⟩
      exact hnone n hmem hname
    simp only [applyRel, hty, hs, ht, hemp, List.foldl_nil]
    rw [foldl_const]
  · refine ⟨(st.nodes.filter (fun n => n.name == s)).foldl
        (fun acc a => (st.nodes.filter (fun n => n.name == t)).foldl
          (fun acc2 b => mergeEdge acc2 a b (sanitize ty)) acc) st, ?_, ?_, ?_⟩
    · simp only [applyRel, hty, hs, ht]
    · exact foldOuter_nodes _ _ _ _
    · intro a ha b hb hna hnb
      exact foldOuter_mem _ _ _ st a ((hsrc a).mpr ⟨ha, hna⟩) b ((htgt b).mpr ⟨hb, hnb⟩)

/-- Witness for `rel_upsert_by_name`: a record whose `source` name
(`Trinity`) matches no node is a no-op. -/
theorem rel_upsert_by_name_witness :
    applyRel ⟨[⟨"PERSON", "Neo", ""⟩], []⟩ ⟨some "Trinity", some "Neo", some "LOVES"⟩ =
      .ok ⟨[⟨"PERSON", "Neo", ""⟩], []⟩ :=
  (rel_upsert_by_name ⟨[⟨"PERSON", "Neo", ""⟩], []⟩
    ⟨some "Trinity", some "Neo", some "LOVES"⟩ "LOVES" "Trinity" "Neo" rfl rfl rfl).1
    (by decide)

theorem hasKey_append (d : List (String × OntRecord)) (kv : String × OntRecord) (k : String) :
    hasKey (d ++ [kv]) k = (hasKey d k || (kv.1 == k)) := by
  simp [hasKey]

theorem dictInsert_absent (d : List (String × OntRecord)) (k : String) (v : OntRecord)
    (h : hasKey d k = false) : dictInsert d k v = d ++ [(k, v)] := by
  simp [dictInsert, h]

theorem dictSetdefault_present (d : List (String × OntRecord)) (k : String) (v : OntRecord)
    (h : hasKey d k = true) : dictSetdefault d k v = d := by
  simp [dictSetdefault, h]

theorem dictSetdefault_absent (d : List (String × OntRecord)) (k : String) (v : OntRecord)
    (h : hasKey d k = false) : dictSetdefault d k v = d ++ [(k, v)] := by
  simp [dictSetdefault, h]

/-- The dict comprehension over a label-unique sequence is the plain
association list, in order. -/
theorem byLabel_aux (seq : List OntRecord) :
    ∀ d : List (String × OntRecord), (∀ r ∈ seq, hasKey d r.label = false) →
      (seq.map OntRecord.label).Nodup →
      seq.foldl (fun d item => dictInsert d item.label item) d =
        d ++ seq.map (fun r => (r.label, r)) := by
  induction seq with
  | nil => intro d _ _; simp
  | cons r rest ih =>
    intro d hd hnd
    rw [List.foldl_cons, dictInsert_absent d r.label r (hd r (List.mem_cons_self _ _))]
    rw [List.map_cons, List.nodup_cons] at hnd
    rw [ih (d ++ [(r.label, r)]) ?_ hnd.2]
    · simp
    · intro r' hr'
      rw [hasKey_append, hd r' (List.mem_cons_of_mem _ hr'), Bool.false_or]
      have : r.label ≠ r'.label := by
        intro he
        exact hnd.1 (he ▸ List.mem_map_of_mem OntRecord.label hr')
      simpa using this

theorem byLabel_nodup (seq : List OntRecord) (h : (seq.map OntRecord.label).Nodup) :
    byLabel seq = seq.map (fun r => (r.label, r)) := by
  have := byLabel_aux seq [] (fun r _ => rfl) h
  simpa [byLabel] using this

/-- Folding `setdefault` over a label-unique sequence appends exactly the
records whose label is not yet a key, in order. -/
theorem setdefaultFold (bs : List OntRecord) :
    ∀ d : List (String × OntRecord), (bs.map OntRecord.label).Nodup →
      bs.foldl (fun d e => dictSetdefault d e.label e) d =
        d ++ (bs.filter (fun r => !(hasKey d r.label))).map (fun r => (r.label, r)) := by
  induction bs with
  | nil => intro d _; simp
  | cons b rest ih =>
    intro d hnd
    rw [List.map_cons, List.nodup_cons] at hnd
    rw [List.foldl_cons]
    by_cases hk : hasKey d b.label = true
    · rw [dictSetdefault_present _ _ _ hk, ih d hnd.2, List.filter_cons]
      simp [hk]
    · have hk' : hasKey d b.label = false := by simpa using hk
      rw [dictSetdefault_absent _ _ _ hk', ih _ hnd.2]
      have hfc : rest.filter (fun r => !(hasKey (d ++ [(b.label, b)]) r.label)) =
          rest.filter (fun r => !(hasKey d r.label)) := by
        apply List.filter_congr
        intro r hr
        have hne : b.label ≠ r.label := by
          intro he
          exact hnd.1 (he ▸ List.mem_map_of_mem OntRecord.label hr)
        rw [hasKey_append]
        simp [hne]
      rw [hfc, List.filter_cons]
      simp [hk']

theorem hasKey_map_pair (as : List OntRecord) (k : String) :
    hasKey (as.map (fun r => (r.label, r))) k = as.any (fun r => r.label == k) := by
  induction as with
  | nil => rfl
  | cons r rest ih =>
    simp only [List.map_cons, hasKey, List.any_cons] at *
    rw [ih]

theorem hasKey_byLabel (as : List OntRecord) (k : String)
    (h : (as.map OntRecord.label).Nodup) :
    hasKey (byLabel as) k = as.any (fun r => r.label == k) := by
  rw [byLabel_nodup as h, hasKey_map_pair]

/-- Structure of the merged entity (or relation) list: `a`'s records in
order, then the records of `b` whose label is not already a label of
`a`. -/
theorem mergeList_struct (as bs : List OntRecord)
    (ha : (as.map OntRecord.label).Nodup) (hb : (bs.map OntRecord.label).Nodup) :
    (bs.foldl (fun d e => dictSetdefault d e.label e) (byLabel as)).map (·.2) =
      as ++ bs.filter (fun r => !(as.any (fun r' => r'.label == r.label))) := by
  rw [setdefaultFold bs _ hb, List.map_append, List.map_map]
  have h1 : (byLabel as).map (·.2) = as := by
    rw [byLabel_nodup as ha, List.map_map]
    have hid : ((fun x : String × OntRecord => x.2) ∘ fun r : OntRecord => (r.label, r)) = id := rfl
    rw [hid, List.map_id]
  have h2 : bs.filter (fun r => !(hasKey (byLabel as) r.label)) =
      bs.filter (fun r => !(as.any (fun r' => r'.label == r.label))) := by
    apply List.filter_congr
    intro r _
    rw [hasKey_byLabel as r.label ha]
  rw [h1, h2]
  have hid : ((fun x : String × OntRecord => x.2) ∘ fun r : OntRecord => (r.label, r)) = id := rfl
  rw [hid, List.map_id]

theorem merge_entities_eq (a b : Ontology)
    (ha : (a.entities.map OntRecord.label).Nodup)
    (hb : (b.entities.map OntRecord.label).Nodup) :
    (merge_ontologies a b).entities =
      a.entities ++ b.entities.filter
        (fun r => !(a.entities.any (fun r' => r'.label == r.label))) :=
  mergeList_struct a.entities b.entities ha hb

theorem merge_relations_eq (a b : Ontology)
    (ha : (a.relations.map OntRecord.label).Nodup)
    (hb : (b.relations.map OntRecord.label).Nodup) :
    (merge_ontologies a b).relations =
      a.relations ++ b.relations.filter
        (fun r => !(a.relations.any (fun r' => r'.label == r.label))) :=
  mergeList_struct a.relations b.relations ha hb

/-- Properties of a merged record list of the shape produced by
`merge_ontologies`: labels unique, label set the union, `a`-records kept
verbatim, `b`-records kept exactly when their label is new, and the
record holding a label of `a` is `a`'s record. -/
theorem mergedList_props (as bs ms : List OntRecord)
    (ha : (as.map OntRecord.label).Nodup) (hb : (bs.map OntRecord.label).Nodup)
    (hm : ms = as ++ bs.filter (fun r => !(as.any (fun r' => r'.label == r.label)))) :
    (ms.map OntRecord.label).Nodup ∧
    (∀ l, l ∈ ms.map OntRecord.label ↔
      l ∈ as.map OntRecord.label ∨ l ∈ bs.map OntRecord.label) ∧
    (∀ r ∈ as, r ∈ ms) ∧
    (∀ r ∈ ms, r ∈ as ∨ (r ∈ bs ∧ r.label ∉ as.map OntRecord.label)) ∧
    (∀ ra ∈ as, ∀ rm ∈ ms, rm.label = ra.label → rm = ra) := by
  subst hm
  have hpred : ∀ r : OntRecord,
      (!(as.any (fun r' => r'.label == r.label))) = true ↔
        r.label ∉ as.map OntRecord.label := by
    intro r
    simp [List.any_eq_true, List.mem_map]
  have hnd : ((as ++ bs.filter
      (fun r => !(as.any (fun r' => r'.label == r.label)))).map OntRecord.label).Nodup := by
    rw [List.map_append, List.nodup_append]
    refine ⟨ha, hb.sublist ((List.filter_sublist bs).map OntRecord.label), ?_⟩
    intro l hla hlb
    rcases List.mem_map.mp hlb with ⟨r, hrf, rfl⟩
    rcases List.mem_filter.mp hrf with ⟨_, hcond⟩
    exact (hpred r).mp hcond hla
  refine ⟨hnd, ?_, ?_, ?_, ?_⟩
  · intro l
    rw [List.map_append, List.mem_append]
    constructor
    · rintro (h | h)
      · exact Or.inl h
      · rcases List.mem_map.mp h with ⟨r, hrf, rfl⟩
        exact Or.inr (List.mem_map_of_mem _ (List.mem_filter.mp hrf).1)
    · rintro (h | h)
      · exact Or.inl h
      · by_cases hin : l ∈ as.map OntRecord.label
        · exact Or.inl hin
        · rcases List.mem_map.mp h with ⟨r, hrb, rfl⟩
          exact Or.inr (List.mem_map_of_mem _
            (List.mem_filter.mpr ⟨hrb, (hpred r).mpr hin⟩))
  · intro r hr
    exact List.mem_append_left _ hr
  · intro r hr
    rcases List.mem_append.mp hr with h | h
    · exact Or.inl h
    · rcases List.mem_filter.mp h with ⟨hrb, hcond⟩
      exact Or.inr ⟨hrb, (hpred r).mp hcond⟩
  · intro ra hra rm hrm hl
    exact List.inj_on_of_nodup_map hnd hrm (List.mem_append_left _ hra) hl

/-- C3: merging two label-unique ontologies yields every entity label and
every relation label of either input exactly once (unique labels whose
set is the union); every record of `a` is kept verbatim, a record of `b`
survives exactly when its label is new, and the record carrying a label
of `a` is `a`'s record (first-source wins, `b`'s colliding record
dropped). -/
theorem merge_ontologies_first_wins (a b : Ontology)
    (hae : (a.entities.map OntRecord.label).Nodup)
    (hbe : (b.entities.map OntRecord.label).Nodup)
    (har : (a.relations.map OntRecord.label).Nodup)
    (hbr : (b.relations.map OntRecord.label).Nodup) :
    ((((merge_ontologies a b).entities.map OntRecord.label).Nodup ∧
      (∀ l, l ∈ (merge_ontologies a b).entities.map OntRecord.label ↔
        l ∈ a.entities.map OntRecord.label ∨ l ∈ b.entities.map OntRecord.label) ∧
      (∀ r ∈ a.entities, r ∈ (merge_ontologies a b).entities) ∧
      (∀ r ∈ (merge_ontologies a b).entities,
        r ∈ a.entities ∨ (r ∈ b.entities ∧ r.label ∉ a.entities.map OntRecord.label)) ∧
      (∀ ra ∈ a.entities, ∀ rm ∈ (merge_ontologies a b).entities,
        rm.label = ra.label → rm = ra)) ∧
     ((((merge_ontologies a b).relations.map OntRecord.label).Nodup ∧
      (∀ l, l ∈ (merge_ontologies a b).relations.map OntRecord.label ↔
        l ∈ a.relations.map OntRecord.label ∨ l ∈ b.relations.map OntRecord.label) ∧
      (∀ r ∈ a.relations, r ∈ (merge_ontologies a b).relations) ∧
      (∀ r ∈ (merge_ontologies a b).relations,
        r ∈ a.relations ∨ (r ∈ b.relations ∧ r.label ∉ a.relations.map OntRecord.label)) ∧
      (∀ ra ∈ a.relations, ∀ rm ∈ (merge_ontologies a b).relations,
        rm.label = ra.label → rm = ra)))) :=
  ⟨mergedList_props a.entities b.entities _ hae hbe (merge_entities_eq a b hae hbe),
   mergedList_props a.relations b.relations _ har hbr (merge_relations_eq a b har hbr)⟩

/-- Witness for `merge_ontologies_first_wins`: with a `Person` label in
both inputs, the merged ontology keeps `a`'s `Person` record. -/
theorem merge_ontologies_first_wins_witness :
    (⟨"Person", [⟨some "name", some "string", some true, some true⟩]⟩ : OntRecord) ∈
      (merge_ontologies
        ⟨[⟨"Person", [⟨some "name", some "string", some true, some true⟩]⟩], []⟩
        ⟨[⟨"Person", []⟩, ⟨"Movie", []⟩], []⟩).entities :=
  (merge_ontologies_first_wins
    ⟨[⟨"Person", [⟨some "name", some "string", some true, some true⟩]⟩], []⟩
    ⟨[⟨"Person", []⟩, ⟨"Movie", []⟩], []⟩
    (by decide) (by decide) (by decide) (by decide)).1.2.2.1
    ⟨"Person", [⟨some "name", some "string", some true, some true⟩]⟩
    (List.mem_singleton.mpr rfl)

/-- A record missing its `type` or `name` key raises `KeyError` before
its query runs. -/
theorem mergeEntity_bad (bad : Entity) (st : GraphState)
    (hbad : bad.type = none ∨ bad.name = none) :
    mergeEntity st bad = .error () := by
  rcases hbad with h | h
  · simp [mergeEntity, h]
  · rcases hty : bad.type with _ | ty <;> simp [mergeEntity, hty, h]

/-- The entity loop applies the records before the first malformed one,
then raises with exactly that intermediate state. -/
theorem applyEntities_append_bad (pre : List Entity) (bad : Entity) (post : List Entity) :
    ∀ st st', applyEntities st pre = .ok st' → (bad.type = none ∨ bad.name = none) →
      applyEntities st (pre ++ bad :: post) = .error st' := by
  induction pre with
  | nil =>
    intro st st' h hbad
    cases h
    simp only [List.nil_append, applyEntities, mergeEntity_bad bad st hbad]
  | cons e rest ih =>
    intro st st' h hbad
    simp only [applyEntities] at h
    cases he : mergeEntity st e with
    | ok st2 =>
      rw [he] at h
      simp only [List.cons_append, applyEntities, he]
      exact ih st2 st' h hbad
    | error u =>
      rw [he] at h
      exact absurd h (by simp)

/-- C5 counterexample: in the payload
`entities = [A:T, B (no type), C:T]`, the malformed record `B` does not
merely skip itself: `update_graph` raises after writing only `A`, record
`C` is never applied, and the remaining chunk of the same file (entity
`D`) is skipped as well — the final state of the file holds only `A`. -/
theorem upsert_record_failure_counterexample :
    (update_graph emptyGraph
        (some ⟨some [⟨some "A", some "T", none⟩, ⟨some "B", none, none⟩,
          ⟨some "C", some "T", none⟩], some []⟩) =
      .error ⟨[⟨"T", "A", ""⟩], []⟩) ∧
    (processFile emptyGraph
        [.ok ⟨some [⟨some "A", some "T", none⟩, ⟨some "B", none, none⟩,
          ⟨some "C", some "T", none⟩], some []⟩,
         .ok ⟨some [⟨some "D", some "T", none⟩], some []⟩] =
      ⟨[⟨"T", "A", ""⟩], []⟩) ∧
    ((⟨"T", "C", ""⟩ : Node) ∉ GraphState.nodes ⟨[⟨"T", "A", ""⟩], []⟩) ∧
    ((⟨"T", "D", ""⟩ : Node) ∉ GraphState.nodes ⟨[⟨"T", "A", ""⟩], []⟩) := by
  decide

/-- C5 amended: a malformed record (missing `name`/`type` key) makes
`update_graph` apply only the records preceding it and then raise; the
rest of the payload and the file's remaining chunks are abandoned, the
exception is caught per file, and processing continues with the next
files from the partial state. -/
theorem upsert_record_failure_amended (st st' : GraphState) (pre post : List Entity)
    (bad : Entity) (rs : List Rel)
    (hbad : bad.type = none ∨ bad.name = none)
    (hpre : applyEntities st pre = .ok st') :
    (update_graph st (some ⟨some (pre ++ bad :: post), some rs⟩) = .error st') ∧
    (∀ chunks : List (Except Unit GraphData),
      processFile st (.ok ⟨some (pre ++ bad :: post), some rs⟩ :: chunks) = st') ∧
    (∀ (chunks : List (Except Unit GraphData))
        (fs : List (List (Except Unit GraphData))),
      process_directory st ((.ok ⟨some (pre ++ bad :: post), some rs⟩ :: chunks) :: fs) =
        process_directory st' fs) := by
  have herr : applyEntities st (pre ++ bad :: post) = .error st' :=
    applyEntities_append_bad pre bad post st st' hpre hbad
  have hupd : update_graph st (some ⟨some (pre ++ bad :: post), some rs⟩) = .error st' := by
    simp only [update_graph, herr]
  have hpc : processChunk st (.ok ⟨some (pre ++ bad :: post), some rs⟩) = .error st' := by
    simp only [processChunk, extract_graph_from_chunk, truthy, Option.isSome_some,
      Bool.true_or, if_true, hupd]
  have hpf : ∀ chunks : List (Except Unit GraphData),
      processFile st (.ok ⟨some (pre ++ bad :: post), some rs⟩ :: chunks) = st' := by
    intro chunks
    simp only [processFile, processFileChunks, hpc]
  refine ⟨hupd, hpf, fun chunks fs => ?_⟩
  show ((_ :: chunks) :: fs).foldl processFile st = fs.foldl processFile st'
  rw [List.foldl_cons, hpf chunks]

/-- Witness for `upsert_record_failure_amended`: one file whose single
chunk has payload `[A:T, B (no type), C:T]` leaves only `A` in the
graph. -/
theorem upsert_record_failure_amended_witness :
    process_directory emptyGraph
        [[.ok ⟨some [⟨some "A", some "T", none⟩, ⟨some "B", none, none⟩,
          ⟨some "C", some "T", none⟩], some []⟩]] =
      ⟨[⟨"T", "A", ""⟩], []⟩ :=
  (upsert_record_failure_amended emptyGraph ⟨[⟨"T", "A", ""⟩], []⟩
    [⟨some "A", some "T", none⟩] [⟨some "C", some "T", none⟩]
    ⟨some "B", none, none⟩ [] (Or.inl rfl) (by decide)).2.2 [] []

theorem hasNode_mono (st st' : GraphState) (lbl nm : String)
    (hsub : st.nodes ⊆ st'.nodes) (h : hasNode st lbl nm = true) :
    hasNode st' lbl nm = true := by
  simp only [hasNode, List.any_eq_true] at *
  rcases h with ⟨n, hn, hp⟩
  exact ⟨n, hsub hn, hp⟩

theorem mergeEntity_ok_mono (st st' : GraphState) (e : Entity)
    (h : mergeEntity st e = .ok st') : st.nodes ⊆ st'.nodes ∧ st'.edges = st.edges := by
  rcases hty : e.type with _ | ty <;> rcases hnm : e.name with _ | nm <;>
      simp only [mergeEntity, hty, hnm] at h
  · cases h
  · cases h
  · cases h
  · split at h <;> cases h
    · exact ⟨fun n hn => hn, rfl⟩
    · exact ⟨fun n hn => List.mem_append_left _ hn, rfl⟩

theorem mergeEntity_ok_key (st st2 : GraphState) (e : Entity)
    (h : mergeEntity st e = .ok st2) :
    ∃ ty nm, e.type = some ty ∧ e.name = some nm ∧
      hasNode st2 (sanitize ty) nm = true := by
  rcases hty : e.type with _ | ty <;> rcases hnm : e.name with _ | nm <;>
      simp only [mergeEntity, hty, hnm] at h
  · cases h
  · cases h
  · cases h
  · refine ⟨ty, nm, rfl, rfl, ?_⟩
    split at h <;> cases h
    · assumption
    · simp [hasNode, List.any_append]

theorem applyEntities_mono (es : List Entity) :
    ∀ st st', applyEntities st es = .ok st' →
      st.nodes ⊆ st'.nodes ∧ st'.edges = st.edges := by
  induction es with
  | nil =>
    intro st st' h
    cases h
    exact ⟨fun n hn => hn, rfl⟩
  | cons e rest ih =>
    intro st st' h
    simp only [applyEntities] at h
    cases he : mergeEntity st e with
    | ok st2 =>
      rw [he] at h
      obtain ⟨h1, h2⟩ := ih st2 st' h
      obtain ⟨h3, h4⟩ := mergeEntity_ok_mono st st2 e he
      exact ⟨fun n hn => h1 (h3 hn), by rw [h2, h4]⟩
    | error u =>
      rw [he] at h
      exact absurd h (by simp)

theorem applyEntities_keys (es : List Entity) :
    ∀ st st', applyEntities st es = .ok st' →
      ∀ e ∈ es, ∃ ty nm, e.type = some ty ∧ e.name = some nm ∧
        hasNode st' (sanitize ty) nm = true := by
  induction es with
  | nil => intro st st' _ e he; cases he
  | cons e0 rest ih =>
    intro st st' h e he
    simp only [applyEntities] at h
    cases he0 : mergeEntity st e0 with
    | error u =>
      rw [he0] at h
      exact absurd h (by simp)
    | ok st2 =>
      rw [he0] at h
      rcases List.mem_cons.mp he with rfl | hmem
      · obtain ⟨ty, nm, hty, hnm, hkey⟩ := mergeEntity_ok_key st st2 e he0
        exact ⟨ty, nm, hty, hnm,
          hasNode_mono st2 st' _ _ (applyEntities_mono rest st2 st' h).1 hkey⟩
      · exact ih st2 st' h e hmem

theorem applyEntities_fix (es : List Entity) (st : GraphState)
    (h : ∀ e ∈ es, ∃ ty nm, e.type = some ty ∧ e.name = some nm ∧
      hasNode st (sanitize ty) nm = true) :
    applyEntities st es = .ok st := by
  induction es with
  | nil => rfl
  | cons e rest ih =>
    obtain ⟨ty, nm, hty, hnm, hkey⟩ := h e (List.mem_cons_self _ _)
    have hme : mergeEntity st e = .ok st := by
      simp [mergeEntity, hty, hnm, hkey]
    simp only [applyEntities, hme]
    exact ih (fun e' he' => h e' (List.mem_cons_of_mem _ he'))

theorem applyRel_ok_mono (st st' : GraphState) (r : Rel)
    (h : applyRel st r = .ok st') : st'.nodes = st.nodes ∧ st.edges ⊆ st'.edges := by
  rcases hty : r.type with _ | ty <;> rcases hs : r.source with _ | s <;>
      rcases ht : r.target with _ | t <;> simp only [applyRel, hty, hs, ht] at h
  all_goals try cases h
  exact ⟨foldOuter_nodes _ _ _ _, foldOuter_subset _ _ _ _⟩

theorem applyRel_ok_covered (st st2 : GraphState) (r : Rel)
    (h : applyRel st r = .ok st2) :
    ∃ ty s t, r.type = some ty ∧ r.source = some s ∧ r.target = some t ∧
      ∀ a ∈ st.nodes, ∀ b ∈ st.nodes, a.name = s → b.name = t →
        (⟨a.label, a.name, b.label, b.name, sanitize ty⟩ : Edge) ∈ st2.edges := by
  rcases hty : r.type with _ | ty <;> rcases hs : r.source with _ | s <;>
      rcases ht : r.target with _ | t <;> simp only [applyRel, hty, hs, ht] at h
  all_goals try cases h
  refine ⟨ty, s, t, rfl, rfl, rfl, ?_⟩
  intro a ha b hb hna hnb
  exact foldOuter_mem _ _ _ st a (List.mem_filter.mpr ⟨ha, by simp [hna]⟩)
    b (List.mem_filter.mpr ⟨hb, by simp [hnb]⟩)

theorem applyRels_mono (rs : List Rel) :
    ∀ st st', applyRels st rs = .ok st' →
      st'.nodes = st.nodes ∧ st.edges ⊆ st'.edges := by
  induction rs with
  | nil =>
    intro st st' h
    cases h
    exact ⟨rfl, fun e he => he⟩
  | cons r rest ih =>
    intro st st' h
    simp only [applyRels] at h
    cases hr : applyRel st r with
    | ok st2 =>
      rw [hr] at h
      obtain ⟨h1, h2⟩ := ih st2 st' h
      obtain ⟨h3, h4⟩ := applyRel_ok_mono st st2 r hr
      exact ⟨by rw [h1, h3], fun e he => h2 (h4 he)⟩
    | error u =>
      rw [hr] at h
      exact absurd h (by simp)

theorem applyRels_covered (rs : List Rel) :
    ∀ st st', applyRels st rs = .ok st' →
      ∀ r ∈ rs, ∃ ty s t, r.type = some ty ∧ r.source = some s ∧ r.target = some t ∧
        ∀ a ∈ st.nodes, ∀ b ∈ st.nodes, a.name = s → b.name = t →
          (⟨a.label, a.name, b.label, b.name, sanitize ty⟩ : Edge) ∈ st'.edges := by
  induction rs with
  | nil => intro st st' _ r hr; cases hr
  | cons r0 rest ih =>
    intro st st' h r hr
    simp only [applyRels] at h
    cases hr0 : applyRel st r0 with
    | error u =>
      rw [hr0] at h
      exact absurd h (by simp)
    | ok st2 =>
      rw [hr0] at h
      rcases List.mem_cons.mp hr with rfl | hmem
      · obtain ⟨ty, s, t, hty, hs, ht, hcov⟩ := applyRel_ok_covered st st2 r hr0
        refine ⟨ty, s, t, hty, hs, ht, fun a ha b hb hna hnb => ?_⟩
        exact (applyRels_mono rest st2 st' h).2 (hcov a ha b hb hna hnb)
      · obtain ⟨ty, s, t, hty, hs, ht, hcov⟩ := ih st2 st' h r hmem
        have hn2 : st2.nodes = st.nodes := (applyRel_ok_mono st st2 r0 hr0).1
        refine ⟨ty, s, t, hty, hs, ht, fun a ha b hb hna hnb => ?_⟩
        exact hcov a (hn2 ▸ ha) b (hn2 ▸ hb) hna hnb

theorem applyRel_fix (st : GraphState) (r : Rel) (ty s t : String)
    (hty : r.type = some ty) (hs : r.source = some s) (ht : r.target = some t)
    (hcov : ∀ a ∈ st.nodes, ∀ b ∈ st.nodes, a.name = s → b.name = t →
      (⟨a.label, a.name, b.label, b.name, sanitize ty⟩ : Edge) ∈ st.edges) :
    applyRel st r = .ok st := by
  simp only [applyRel, hty, hs, ht]
  refine congrArg Except.ok (foldOuter_fix _ _ _ st ?_)
  intro a haf b hbf
  obtain ⟨ha, hpa⟩ := List.mem_filter.mp haf
  obtain ⟨hb, hpb⟩ := List.mem_filter.mp hbf
  exact hcov a ha b hb (by simpa using hpa) (by simpa using hpb)

theorem applyRels_fix (rs : List Rel) (st : GraphState)
    (h : ∀ r ∈ rs, ∃ ty s t, r.type = some ty ∧ r.source = some s ∧ r.target = some t ∧
      ∀ a ∈ st.nodes, ∀ b ∈ st.nodes, a.name = s → b.name = t →
        (⟨a.label, a.name, b.label, b.name, sanitize ty⟩ : Edge) ∈ st.edges) :
    applyRels st rs = .ok st := by
  induction rs with
  | nil => rfl
  | cons r rest ih =>
    obtain ⟨ty, s, t, hty, hs, ht, hcov⟩ := h r (List.mem_cons_self _ _)
    simp only [applyRels, applyRel_fix st r ty s t hty hs ht hcov]
    exact ih (fun r' hr' => h r' (List.mem_cons_of_mem _ hr'))

/-- C1: upsert is idempotent.  If applying a payload to the empty graph
succeeds and produces state `st1` (count `n`), then applying the same
payload again returns the same state `st1` and the same count — in
particular the node and edge counts are unchanged and no duplicate
(source, target, type) edge is created. -/
theorem upsert_idempotent (p : Option GraphData) (st1 : GraphState) (n : Nat)
    (h : update_graph emptyGraph p = .ok (st1, n)) :
    update_graph st1 p = .ok (st1, n) := by
  rcases p with _ | ⟨ge, gr⟩
  · cases h
    rfl
  · rcases ge with _ | es
    · rcases gr with _ | rs <;> (cases h; rfl)
    · rcases gr with _ | rs
      · cases h
        rfl
      · simp only [update_graph] at h ⊢
        cases happ : applyEntities emptyGraph es with
        | error stE =>
          rw [happ] at h
          exact absurd h (by simp)
        | ok stA =>
          simp only [happ] at h
          cases hrels : applyRels stA rs with
          | error stE =>
            simp only [hrels] at h
            exact absurd h (by simp)
          | ok st2 =>
            simp only [hrels] at h
            obtain ⟨rfl, rfl⟩ := h
            have hnodes : st1.nodes = stA.nodes := (applyRels_mono rs stA st1 hrels).1
            have hfixE : applyEntities st1 es = .ok st1 := by
              apply applyEntities_fix
              intro e he
              obtain ⟨ty, nm, hty, hnm, hkey⟩ :=
                applyEntities_keys es emptyGraph stA happ e he
              refine ⟨ty, nm, hty, hnm, ?_⟩
              have hsame : hasNode st1 (sanitize ty) nm = hasNode stA (sanitize ty) nm := by
                unfold hasNode
                rw [hnodes]
              rw [hsame]
              exact hkey
            have hfixR : applyRels st1 rs = .ok st1 := by
              apply applyRels_fix
              intro r hr
              obtain ⟨ty, s, t, hty, hs, ht, hcov⟩ :=
                applyRels_covered rs stA st1 hrels r hr
              refine ⟨ty, s, t, hty, hs, ht, fun a ha b hb hna hnb => ?_⟩
              exact hcov a (hnodes ▸ ha) b (hnodes ▸ hb) hna hnb
            simp only [hfixE, hfixR]

/-- Witness for `upsert_idempotent`: a payload with two entities and one
relationship; re-applying it to the resulting graph changes nothing. -/
theorem upsert_idempotent_witness :
    update_graph
        ⟨[⟨"PERSON", "Neo", "d"⟩, ⟨"TECH", "Matrix", ""⟩],
          [⟨"PERSON", "Neo", "TECH", "Matrix", "IN"⟩]⟩
        (some ⟨some [⟨some "Neo", some "PERSON", some "d"⟩,
            ⟨some "Matrix", some "TECH", none⟩],
          some [⟨some "Neo", some "Matrix", some "IN"⟩]⟩) =
      .ok (⟨[⟨"PERSON", "Neo", "d"⟩, ⟨"TECH", "Matrix", ""⟩],
        [⟨"PERSON", "Neo", "TECH", "Matrix", "IN"⟩]⟩, 3) :=
  upsert_idempotent _ _ 3 (by decide)

end PDFKG
